import Mathlib

/-!
Verification of the statistics engine and chart coordinate mapper of the
backtest front-end (`BacktestDemo` in `app/frontend/src/components`).

The embedding models JavaScript numbers by exact rationals (`ℚ`).  The two
places where IEEE special values matter are modelled explicitly:

* the running drawdown peak is initialised to `-Infinity`; we model the peak
  as `Option ℚ`, `none` standing for `-Infinity` (every value compares
  greater than it, and `peak > 0` is false for it);
* `totalReturn` divides by the first equity value, which may be zero; we
  model the result with `JsNum`, a rational extended with `posInf`, `negInf`
  and `nan`, with the IEEE rules for the operations that occur.
-/

namespace Backtest

/-- Order side; `side` is exactly one of two values in the data model. -/
inductive Side where
  | BUY
  | SELL
deriving DecidableEq, Repr

/-- One executed fill: `type Trade = { date; side; qty; price; fee }`. -/
structure Trade where
  date : String
  side : Side
  qty : ℚ
  price : ℚ
  fee : ℚ
deriving DecidableEq, Repr

/-- One equity sample: `type EquityPoint = { t: string; v: number }`. -/
structure EquityPoint where
  t : String
  v : ℚ
deriving DecidableEq, Repr

/-- A JavaScript number that may be non-finite: a rational, `Infinity`,
`-Infinity` or `NaN`. -/
inductive JsNum where
  | num (q : ℚ)
  | posInf
  | negInf
  | nan
deriving DecidableEq, Repr

namespace JsNum

/-- Whether a JavaScript number is finite. -/
def isFinite : JsNum → Bool
  | num _ => true
  | _ => false

/-- IEEE division as JavaScript performs it (zero is `+0`: a positive number
divided by zero is `Infinity`, a negative one `-Infinity`, `0/0` is `NaN`). -/
def div : JsNum → JsNum → JsNum
  | nan, _ => nan
  | _, nan => nan
  | num a, num b =>
      if b = 0 then (if a = 0 then nan else if 0 < a then posInf else negInf)
      else num (a / b)
  | posInf, num b => if 0 ≤ b then posInf else negInf
  | negInf, num b => if 0 ≤ b then negInf else posInf
  | num _, posInf => num 0
  | num _, negInf => num 0
  | posInf, posInf => nan
  | posInf, negInf => nan
  | negInf, posInf => nan
  | negInf, negInf => nan

/-- IEEE subtraction as JavaScript performs it. -/
def sub : JsNum → JsNum → JsNum
  | nan, _ => nan
  | _, nan => nan
  | num a, num b => num (a - b)
  | posInf, num _ => posInf
  | negInf, num _ => negInf
  | num _, posInf => negInf
  | num _, negInf => posInf
  | posInf, negInf => posInf
  | negInf, posInf => negInf
  | posInf, posInf => nan
  | negInf, negInf => nan

/-- IEEE multiplication as JavaScript performs it. -/
def mul : JsNum → JsNum → JsNum
  | nan, _ => nan
  | _, nan => nan
  | num a, num b => num (a * b)
  | posInf, num b => if b = 0 then nan else if 0 < b then posInf else negInf
  | num a, posInf => if a = 0 then nan else if 0 < a then posInf else negInf
  | negInf, num b => if b = 0 then nan else if 0 < b then negInf else posInf
  | num a, negInf => if a = 0 then nan else if 0 < a then negInf else posInf
  | posInf, posInf => posInf
  | posInf, negInf => negInf
  | negInf, posInf => negInf
  | negInf, negInf => posInf

end JsNum

/-! ### Round-trip matching (stats useMemo, win-rate loop) -/

/-- P&L of one matched round trip:
`(sell.price - buy.price) * Math.min(buy.qty, sell.qty) - (buy.fee + sell.fee)`. -/
def pnlOf (buy sell : Trade) : ℚ :=
  (sell.price - buy.price) * min buy.qty sell.qty - (buy.fee + sell.fee)

/-- The inner `while (j < trades.length && trades[j].side !== 'SELL') j++`
scan: the nearest SELL in the list, together with the trades after it. -/
def splitAtSell : List Trade → Option (Trade × List Trade)
  | [] => none
  | t :: rest => if t.side = Side.SELL then some (t, rest) else splitAtSell rest

/-- The `for (let i = 0; ...)` round-trip loop of the stats useMemo as an
explicit state machine over the remaining ledger, returning `(wins, losses)`.
State `none` is the outer scan (index `i`, looking for a BUY; a SELL there is
skipped by `continue`); state `some b` is the inner
`while (j < trades.length && trades[j].side !== 'SELL') j++` scan holding the
pending BUY `b`.  On the nearest SELL the pair is scored and the outer scan
resumes just after it (`i = j` followed by `i++`); if the inner scan reaches
the end of the ledger the loop ends (`break`). -/
def rtwGo : Option Trade → List Trade → ℕ × ℕ
  | none, [] => (0, 0)
  | none, t :: rest =>
      if t.side = Side.BUY then rtwGo (some t) rest else rtwGo none rest
  | some _, [] => (0, 0)
  | some b, t :: rest =>
      if t.side = Side.SELL then
        let p := rtwGo none rest
        if 0 < pnlOf b t then (p.1 + 1, p.2) else (p.1, p.2 + 1)
      else rtwGo (some b) rest

/-- `(wins, losses)` of the round-trip loop, started at the head of the
ledger with no pending BUY. -/
def roundTripsWL (trades : List Trade) : ℕ × ℕ :=
  rtwGo none trades

/-- `const roundTrips = wins + losses`. -/
def roundTripCount (trades : List Trade) : ℕ :=
  (roundTripsWL trades).1 + (roundTripsWL trades).2

/-- `const winRate = roundTrips > 0 ? (wins / roundTrips) * 100 : 0`. -/
def winRate (trades : List Trade) : ℚ :=
  if 0 < roundTripCount trades then
    ((roundTripsWL trades).1 : ℚ) / (roundTripCount trades : ℚ) * 100
  else 0

/-! ### Max drawdown (stats useMemo, forward pass) -/

/-- `if (p.v > peak) peak = p.v`, with `none` standing for the initial
`-Infinity` (every value exceeds it). -/
def updPeak (pk : Option ℚ) (v : ℚ) : ℚ :=
  match pk with
  | none => v
  | some p => if p < v then v else p

/-- The `for (const p of eq)` drawdown pass: running peak `pk` and running
maximum drawdown `m`; `if (peak > 0) { dd = (peak - p.v) / peak; if (dd > maxDD)
maxDD = dd }`. -/
def ddFold : List ℚ → Option ℚ → ℚ → ℚ
  | [], _, m => m
  | v :: r, pk, m =>
      let p := updPeak pk v
      ddFold r (some p)
        (if 0 < p then (if m < (p - v) / p then (p - v) / p else m) else m)

/-- `const maxDrawdownPct = maxDD * 100` with `maxDD` the result of the
forward pass started at `peak = -Infinity`, `maxDD = 0`. -/
def maxDrawdownPct (vals : List ℚ) : ℚ :=
  ddFold vals none 0 * 100

/-! ### The statistics record (stats useMemo) -/

/-- The record returned by the stats useMemo. -/
structure SummaryStats where
  startV : ℚ
  endV : ℚ
  totalReturn : JsNum
  maxDrawdownPct : ℚ
  tradesCount : ℕ
  roundTrips : ℕ
  winRate : ℚ
deriving DecidableEq, Repr

/-- The stats useMemo: `if (eq.length < 2) return null`, otherwise the
statistics record.  `startV = eq[0].v`, `endV = eq[eq.length - 1].v`,
`totalReturn = (endV / startV - 1) * 100` in JavaScript arithmetic. -/
def summarize (eq : List EquityPoint) (trades : List Trade) :
    Option SummaryStats :=
  if eq.length < 2 then none
  else
    let startV := (eq.headD ⟨"", 0⟩).v
    let endV := (eq.getLastD ⟨"", 0⟩).v
    some ⟨startV, endV,
      JsNum.mul (JsNum.sub (JsNum.div (JsNum.num endV) (JsNum.num startV))
        (JsNum.num 1)) (JsNum.num 100),
      maxDrawdownPct (eq.map (·.v)),
      trades.length,
      roundTripCount trades,
      winRate trades⟩

/-! ### Chart coordinate mapper (chart useMemo) -/

/-- `Math.min(...vals)` for the nonempty value lists the chart guard lets
through (the empty case is unreachable behind the guard). -/
def listMin : List ℚ → ℚ
  | [] => 0
  | v :: r => r.foldl min v

/-- `Math.max(...vals)` for the nonempty value lists the chart guard lets
through. -/
def listMax : List ℚ → ℚ
  | [] => 0
  | v :: r => r.foldl max v

/-- The record returned by the chart useMemo; the SVG path is modelled as the
list of exact coordinates fed to `toFixed(1)` formatting. -/
structure ChartData where
  d : List (ℚ × ℚ)
  W : ℚ
  H : ℚ
  min : ℚ
  max : ℚ
  last : ℚ
deriving DecidableEq, Repr

/-- `const range = max - min || 1` (zero is falsy in JavaScript). -/
def chartRange (vals : List ℚ) : ℚ :=
  if listMax vals - listMin vals = 0 then 1 else listMax vals - listMin vals

/-- The chart useMemo: `W = 800, H = 300, PAD = 30`; with fewer than two
points the empty zero-bound record; otherwise
`x = PAD + i * stepX`, `y = PAD + (H - PAD*2) * (1 - (p.v - min) / range)`. -/
def chartOf (points : List EquityPoint) : ChartData :=
  if points.length < 2 then ⟨[], 800, 300, 0, 0, 0⟩
  else
    let vals := points.map (·.v)
    let mn := listMin vals
    let mx := listMax vals
    let range := chartRange vals
    let stepX := (800 - 30 * 2) / ((points.length : ℚ) - 1)
    let d := points.enum.map (fun ip =>
      (30 + (ip.1 : ℚ) * stepX,
       30 + (300 - 30 * 2) * (1 - (ip.2.v - mn) / range)))
    ⟨d, 800, 300, mn, mx, vals.getLastD 0⟩

/-! ### Drawdown characterisation following the specification's wording

The specification (§4.1) describes the drawdown pass as "the maximum over the
series of `(peak − value) / peak`" where "peak starts at negative infinity, is
updated to `max(peak, value)` at each point, and the instantaneous drawdown is
only computed when `peak > 0` (points before the first positive peak
contribute zero)".  `ddList`/`specMaxDD` below are written from those words,
to be compared with the source-derived `ddFold`/`maxDrawdownPct`. -/

/-- Peak update in the specification's words: `peak = max(peak, value)`,
`none` standing for the initial negative infinity. -/
def specPeak (pk : Option ℚ) (v : ℚ) : ℚ :=
  match pk with
  | none => v
  | some p => max p v

/-- The list of instantaneous drawdowns of the series, one per point:
`(peak − value) / peak` when the updated peak is positive, zero otherwise. -/
def ddList : List ℚ → Option ℚ → List ℚ
  | [], _ => []
  | v :: r, pk =>
      let p := specPeak pk v
      (if 0 < p then (p - v) / p else 0) :: ddList r (some p)

/-- The sequence of running peaks of the series. -/
def peaksList : List ℚ → Option ℚ → List ℚ
  | [], _ => []
  | v :: r, pk =>
      let p := specPeak pk v
      p :: peaksList r (some p)

/-- Specification-worded maximum drawdown: the maximum of the instantaneous
drawdowns, times 100. -/
def specMaxDD (vals : List ℚ) : ℚ :=
  ((ddList vals none).foldr max 0) * 100

/-! ### Concrete inputs from the specification's examples -/

/-- BUY 10@50 fee 1 (round-trip example). -/
def exB1 : Trade := ⟨"d1", Side.BUY, 10, 50, 1⟩

/-- SELL 10@60 fee 1 (round-trip example). -/
def exS1 : Trade := ⟨"d2", Side.SELL, 10, 60, 1⟩

/-- BUY 5@70 fee 1 (round-trip example). -/
def exB2 : Trade := ⟨"d3", Side.BUY, 5, 70, 1⟩

/-- SELL 5@65 fee 1 (round-trip example). -/
def exS2 : Trade := ⟨"d4", Side.SELL, 5, 65, 1⟩

/-- The round-trip example ledger `[BUY 10@50, SELL 10@60, BUY 5@70, SELL 5@65]`. -/
def exLedger : List Trade := [exB1, exS1, exB2, exS2]

/-- BUY 10@50 (unterminated example, no fee given). -/
def exU1 : Trade := ⟨"d1", Side.BUY, 10, 50, 0⟩

/-- BUY 5@70 (unterminated example, no fee given). -/
def exU2 : Trade := ⟨"d2", Side.BUY, 5, 70, 0⟩

/-- The drawdown example equity series `[100, 120, 80, 130]`. -/
def eqEx : List EquityPoint := [⟨"t1", 100⟩, ⟨"t2", 120⟩, ⟨"t3", 80⟩, ⟨"t4", 130⟩]

/-- The chart example equity series `[{v:100},{v:200}]`. -/
def eqChart : List EquityPoint := [⟨"t1", 100⟩, ⟨"t2", 200⟩]

/-! ### Round-trip matching lemmas -/

theorem splitAtSell_eq_none {l : List Trade}
    (h : ∀ t ∈ l, t.side ≠ Side.SELL) : splitAtSell l = none := by
  induction l with
  | nil => rfl
  | cons t rest ih =>
      have ht : t.side ≠ Side.SELL := h t (List.mem_cons_self t rest)
      simp only [splitAtSell, if_neg ht]
      exact ih fun u hu => h u (List.mem_cons_of_mem t hu)

theorem splitAtSell_append_of_none {l m : List Trade}
    (h : splitAtSell l = none) : splitAtSell (l ++ m) = splitAtSell m := by
  induction l with
  | nil => rfl
  | cons t rest ih =>
      by_cases hs : t.side = Side.SELL
      · simp [splitAtSell, hs] at h
      · simp only [splitAtSell, if_neg hs] at h
        simpa [splitAtSell, if_neg hs] using ih h

theorem splitAtSell_append_of_some {l m : List Trade} {s : Trade}
    {after : List Trade} (h : splitAtSell l = some (s, after)) :
    splitAtSell (l ++ m) = some (s, after ++ m) := by
  induction l with
  | nil => simp [splitAtSell] at h
  | cons t rest ih =>
      by_cases hs : t.side = Side.SELL
      · simp only [splitAtSell, if_pos hs, Option.some.injEq, Prod.mk.injEq] at h
        obtain ⟨rfl, rfl⟩ := h
        simp [splitAtSell, hs]
      · simp only [splitAtSell, if_neg hs] at h
        simpa [splitAtSell, if_neg hs] using ih h

theorem splitAtSell_cons_sell {mid : List Trade} {s : Trade}
    (hmid : ∀ t ∈ mid, t.side ≠ Side.SELL) (hs : s.side = Side.SELL)
    (rest : List Trade) :
    splitAtSell (mid ++ s :: rest) = some (s, rest) := by
  rw [splitAtSell_append_of_none (splitAtSell_eq_none hmid)]
  simp [splitAtSell, hs]

theorem rtwGo_pending_of_none {b : Trade} {rest : List Trade}
    (h : splitAtSell rest = none) : rtwGo (some b) rest = (0, 0) := by
  induction rest with
  | nil => rfl
  | cons t r ih =>
      by_cases hs : t.side = Side.SELL
      · simp [splitAtSell, hs] at h
      · simp only [splitAtSell, if_neg hs] at h
        simpa [rtwGo, hs] using ih h

theorem rtwGo_pending_of_some {b : Trade} {rest : List Trade} {s : Trade}
    {after : List Trade} (h : splitAtSell rest = some (s, after)) :
    rtwGo (some b) rest =
      (if 0 < pnlOf b s then ((rtwGo none after).1 + 1, (rtwGo none after).2)
       else ((rtwGo none after).1, (rtwGo none after).2 + 1)) := by
  induction rest with
  | nil => simp [splitAtSell] at h
  | cons t r ih =>
      by_cases hs : t.side = Side.SELL
      · simp only [splitAtSell, if_pos hs, Option.some.injEq, Prod.mk.injEq] at h
        obtain ⟨rfl, rfl⟩ := h
        simp [rtwGo, hs]
      · simp only [splitAtSell, if_neg hs] at h
        simpa [rtwGo, hs] using ih h

theorem roundTripsWL_nil : roundTripsWL [] = (0, 0) := rfl

theorem roundTripsWL_cons_skip {t : Trade} (ht : t.side ≠ Side.BUY)
    (rest : List Trade) : roundTripsWL (t :: rest) = roundTripsWL rest := by
  simp [roundTripsWL, rtwGo, ht]

theorem roundTripsWL_cons_buy_none {t : Trade} (ht : t.side = Side.BUY)
    {rest : List Trade} (h : splitAtSell rest = none) :
    roundTripsWL (t :: rest) = (0, 0) := by
  simp only [roundTripsWL, rtwGo, if_pos ht]
  exact rtwGo_pending_of_none h

theorem roundTripsWL_cons_buy_some {t : Trade} (ht : t.side = Side.BUY)
    {rest : List Trade} {s : Trade} {after : List Trade}
    (h : splitAtSell rest = some (s, after)) :
    roundTripsWL (t :: rest) =
      (if 0 < pnlOf t s then ((roundTripsWL after).1 + 1, (roundTripsWL after).2)
       else ((roundTripsWL after).1, (roundTripsWL after).2 + 1)) := by
  simp only [roundTripsWL, rtwGo, if_pos ht]
  exact rtwGo_pending_of_some h

theorem side_eq_buy_of_ne_sell {t : Trade} (h : t.side ≠ Side.SELL) :
    t.side = Side.BUY := by
  cases hts : t.side with
  | BUY => rfl
  | SELL => exact absurd hts h

/-- A ledger with no SELL at all yields no round trips: the scan halts at the
first BUY (or runs off the end). -/
theorem roundTripsWL_of_nosell {l : List Trade}
    (h : ∀ t ∈ l, t.side ≠ Side.SELL) : roundTripsWL l = (0, 0) := by
  cases l with
  | nil => rfl
  | cons t rest =>
      have ht : t.side = Side.BUY :=
        side_eq_buy_of_ne_sell (h t (List.mem_cons_self t rest))
      exact roundTripsWL_cons_buy_none ht
        (splitAtSell_eq_none fun u hu => h u (List.mem_cons_of_mem t hu))

/-- Appending a BUY followed only by non-SELL trades never changes the result
of the scan, whatever its current state: the unmatched BUY halts matching. -/
theorem rtwGo_halt {b : Trade} {suf : List Trade} (hb : b.side = Side.BUY)
    (hs : ∀ t ∈ suf, t.side ≠ Side.SELL) (l : List Trade) :
    ∀ st : Option Trade, rtwGo st (l ++ b :: suf) = rtwGo st l := by
  induction l with
  | nil =>
      intro st
      have hnone : splitAtSell suf = none := splitAtSell_eq_none hs
      cases st with
      | none =>
          simp only [List.nil_append, rtwGo, if_pos hb]
          exact rtwGo_pending_of_none hnone
      | some c =>
          have hbs : b.side ≠ Side.SELL := by
            rw [hb]
            intro hcon
            cases hcon
          simp only [List.nil_append, rtwGo, if_neg hbs]
          exact rtwGo_pending_of_none hnone
  | cons t l ih =>
      intro st
      cases st with
      | none =>
          by_cases ht : t.side = Side.BUY
          · simp only [List.cons_append, rtwGo, if_pos ht]
            exact ih (some t)
          · simp only [List.cons_append, rtwGo, if_neg ht]
            exact ih none
      | some c =>
          by_cases ht : t.side = Side.SELL
          · simp only [List.cons_append, rtwGo, if_pos ht, List.append_eq, ih none]
          · simp only [List.cons_append, rtwGo, if_neg ht]
            exact ih (some c)

/-- Each matched round trip consumes at least two distinct trades, so the scan
classifies at most `length / 2` round trips; the pending-BUY state may consume
one trade already scanned. -/
theorem rtwGo_count_le : ∀ (l : List Trade) (st : Option Trade),
    2 * ((rtwGo st l).1 + (rtwGo st l).2) ≤ l.length + st.elim 0 fun _ => 1 := by
  intro l
  induction l with
  | nil =>
      intro st
      cases st <;> simp [rtwGo]
  | cons t l ih =>
      intro st
      cases st with
      | none =>
          by_cases ht : t.side = Side.BUY
          · simp only [rtwGo, if_pos ht, List.length_cons]
            simpa using ih (some t)
          · simp only [rtwGo, if_neg ht, List.length_cons]
            have := ih none
            simp only [Option.elim] at this ⊢
            omega
      | some b =>
          by_cases ht : t.side = Side.SELL
          · simp only [rtwGo, if_pos ht, List.length_cons]
            have := ih none
            simp only [Option.elim] at this ⊢
            by_cases hp : 0 < pnlOf b t
            · simp only [if_pos hp]
              omega
            · simp only [if_neg hp]
              omega
          · simp only [rtwGo, if_neg ht, List.length_cons]
            have := ih (some b)
            simp only [Option.elim] at this ⊢
            omega

theorem two_mul_roundTripCount_le (tl : List Trade) :
    2 * roundTripCount tl ≤ tl.length := by
  simpa using rtwGo_count_le tl none

theorem winRate_nonneg (tl : List Trade) : 0 ≤ winRate tl := by
  unfold winRate
  split
  · positivity
  · exact le_refl 0

theorem winRate_le_100 (tl : List Trade) : winRate tl ≤ 100 := by
  unfold winRate
  split
  next hpos =>
      have hw : ((roundTripsWL tl).1 : ℚ) ≤ (roundTripCount tl : ℚ) := by
        have : (roundTripsWL tl).1 ≤ roundTripCount tl := Nat.le_add_right _ _
        exact_mod_cast this
      have hrt : (0 : ℚ) < (roundTripCount tl : ℚ) := by exact_mod_cast hpos
      have hdiv : ((roundTripsWL tl).1 : ℚ) / (roundTripCount tl : ℚ) ≤ 1 :=
        (div_le_one hrt).mpr hw
      calc ((roundTripsWL tl).1 : ℚ) / (roundTripCount tl : ℚ) * 100
          ≤ 1 * 100 := by
            exact mul_le_mul_of_nonneg_right hdiv (by norm_num)
        _ = 100 := one_mul 100
  next => norm_num

/-! ### Drawdown lemmas -/

theorem max_eq_ite (a b : ℚ) : max a b = if a < b then b else a := by
  rcases lt_or_le a b with h | h
  · rw [if_pos h, max_eq_right h.le]
  · rw [if_neg (not_lt.mpr h), max_eq_left h]

theorem updPeak_eq_specPeak (pk : Option ℚ) (v : ℚ) :
    updPeak pk v = specPeak pk v := by
  cases pk with
  | none => rfl
  | some p =>
      simp only [updPeak, specPeak]
      rw [max_eq_ite]

theorem le_specPeak (pk : Option ℚ) (v : ℚ) : v ≤ specPeak pk v := by
  cases pk with
  | none => exact le_refl v
  | some p => exact le_max_right p v

theorem ddList_nonneg : ∀ (l : List ℚ) (pk : Option ℚ), ∀ x ∈ ddList l pk, 0 ≤ x := by
  intro l
  induction l with
  | nil => intro pk x hx; simp [ddList] at hx
  | cons v r ih =>
      intro pk x hx
      simp only [ddList, List.mem_cons] at hx
      rcases hx with hx | hx
      · subst hx
        split
        next hp => exact div_nonneg (sub_nonneg.mpr (le_specPeak pk v)) hp.le
        next => exact le_refl 0
      · exact ih (some (specPeak pk v)) x hx

theorem ddFold_eq_foldl : ∀ (l : List ℚ) (pk : Option ℚ) (m : ℚ), 0 ≤ m →
    ddFold l pk m = (ddList l pk).foldl max m := by
  intro l
  induction l with
  | nil => intro pk m _; rfl
  | cons v r ih =>
      intro pk m hm
      simp only [ddFold, ddList, List.foldl_cons, updPeak_eq_specPeak]
      have hstep :
          (if 0 < specPeak pk v then
             (if m < (specPeak pk v - v) / specPeak pk v then
               (specPeak pk v - v) / specPeak pk v else m)
           else m) =
          max m (if 0 < specPeak pk v then (specPeak pk v - v) / specPeak pk v else 0) := by
        by_cases hp : 0 < specPeak pk v
        · rw [if_pos hp, if_pos hp, max_eq_ite]
        · rw [if_neg hp, if_neg hp, max_eq_left hm]
      rw [hstep]
      exact ih (some (specPeak pk v)) _ (le_trans hm (le_max_left m _))

theorem foldl_max_eq_max_foldr : ∀ (l : List ℚ) (a : ℚ), 0 ≤ a →
    l.foldl max a = max a (l.foldr max 0) := by
  intro l
  induction l with
  | nil =>
      intro a ha
      simp [max_eq_left ha]
  | cons v r ih =>
      intro a ha
      simp only [List.foldl_cons, List.foldr_cons]
      rw [ih (max a v) (le_trans ha (le_max_left a v)), max_assoc]

/-- The source's running-maximum forward pass computes exactly the
specification's "maximum over the series of instantaneous drawdowns". -/
theorem maxDrawdownPct_eq_specMaxDD (vals : List ℚ) :
    maxDrawdownPct vals = specMaxDD vals := by
  unfold maxDrawdownPct specMaxDD
  rw [ddFold_eq_foldl vals none 0 (le_refl 0),
      foldl_max_eq_max_foldr _ 0 (le_refl 0)]
  congr 1
  have h0 : (0 : ℚ) ≤ (ddList vals none).foldr max 0 := by
    induction ddList vals none with
    | nil => exact le_refl 0
    | cons x xs ihx => exact le_trans ihx (by simp [List.foldr_cons])
  exact max_eq_right h0

/-- On a non-decreasing tail the pass never increases the running maximum:
the peak always equals the current value, so every instantaneous drawdown is
zero. -/
theorem ddFold_of_chain : ∀ (l : List ℚ) (p m : ℚ), 0 ≤ m →
    List.Chain (· ≤ ·) p l → ddFold l (some p) m = m := by
  intro l
  induction l with
  | nil => intro p m _ _; rfl
  | cons v r ih =>
      intro p m hm hch
      rw [List.chain_cons] at hch
      have hpv : p ≤ v := hch.1
      have hpk : updPeak (some p) v = v := by
        simp only [updPeak]
        by_cases h : p < v
        · rw [if_pos h]
        · rw [if_neg h]
          exact le_antisymm hpv (not_lt.mp h)
      simp only [ddFold, hpk, sub_self, zero_div]
      have hbody :
          (if 0 < v then (if m < 0 then (0 : ℚ) else m) else m) = m := by
        by_cases h : 0 < v
        · rw [if_pos h, if_neg (not_lt.mpr hm)]
        · rw [if_neg h]
      rw [hbody]
      exact ih v m hm hch.2

/-- Monotone non-decreasing series have exactly zero maximum drawdown. -/
theorem maxDrawdownPct_of_monotone {vals : List ℚ}
    (h : vals.Chain' (· ≤ ·)) : maxDrawdownPct vals = 0 := by
  cases vals with
  | nil => simp [maxDrawdownPct, ddFold]
  | cons v r =>
      have hch : List.Chain (· ≤ ·) v r := h
      unfold maxDrawdownPct
      have hpk : updPeak none v = v := rfl
      simp only [ddFold, hpk, sub_self, zero_div]
      have hbody :
          (if 0 < v then (if (0 : ℚ) < 0 then (0 : ℚ) else 0) else (0 : ℚ)) = 0 := by
        by_cases hv : 0 < v
        · rw [if_pos hv, if_neg (lt_irrefl 0)]
        · rw [if_neg hv]
      rw [hbody, ddFold_of_chain r v 0 (le_refl 0) hch, zero_mul]

/-! ### Chart lemmas -/

theorem foldl_min_le_init : ∀ (r : List ℚ) (v : ℚ), r.foldl min v ≤ v := by
  intro r
  induction r with
  | nil => intro v; exact le_refl v
  | cons a r ih =>
      intro v
      exact le_trans (ih (min v a)) (min_le_left v a)

theorem foldl_min_le_of_mem : ∀ (r : List ℚ) (v x : ℚ), x ∈ r →
    r.foldl min v ≤ x := by
  intro r
  induction r with
  | nil => intro v x hx; simp at hx
  | cons a r ih =>
      intro v x hx
      rcases List.mem_cons.mp hx with rfl | hx
      · exact le_trans (foldl_min_le_init r (min v x)) (min_le_right v x)
      · exact ih (min v a) x hx

theorem init_le_foldl_max : ∀ (r : List ℚ) (v : ℚ), v ≤ r.foldl max v := by
  intro r
  induction r with
  | nil => intro v; exact le_refl v
  | cons a r ih =>
      intro v
      exact le_trans (le_max_left v a) (ih (max v a))

theorem le_foldl_max_of_mem : ∀ (r : List ℚ) (v x : ℚ), x ∈ r →
    x ≤ r.foldl max v := by
  intro r
  induction r with
  | nil => intro v x hx; simp at hx
  | cons a r ih =>
      intro v x hx
      rcases List.mem_cons.mp hx with rfl | hx
      · exact le_trans (le_max_right v x) (init_le_foldl_max r (max v x))
      · exact ih (max v a) x hx

theorem listMin_le_of_mem {l : List ℚ} {x : ℚ} (h : x ∈ l) : listMin l ≤ x := by
  cases l with
  | nil => simp at h
  | cons v r =>
      rcases List.mem_cons.mp h with rfl | hx
      · exact foldl_min_le_init r x
      · exact foldl_min_le_of_mem r v x hx

theorem le_listMax_of_mem {l : List ℚ} {x : ℚ} (h : x ∈ l) : x ≤ listMax l := by
  cases l with
  | nil => simp at h
  | cons v r =>
      rcases List.mem_cons.mp h with rfl | hx
      · exact init_le_foldl_max r x
      · exact le_foldl_max_of_mem r v x hx

theorem chartRange_pos (vals : List ℚ) (hne : vals ≠ []) :
    0 < chartRange vals := by
  unfold chartRange
  split
  · exact one_pos
  next hz =>
      have hv : vals.headD 0 ∈ vals := by
        cases vals with
        | nil => exact absurd rfl hne
        | cons v r => exact List.mem_cons_self v r
      have hle : listMin vals ≤ listMax vals :=
        le_trans (listMin_le_of_mem hv) (le_listMax_of_mem hv)
      exact lt_of_le_of_ne (sub_nonneg.mpr hle) (Ne.symm hz)

/-- Coordinates of the `i`-th path point produced by the chart useMemo. -/
theorem chartOf_d_getD (points : List EquityPoint) (h2 : 2 ≤ points.length)
    {i : ℕ} (hi : i < points.length) :
    (chartOf points).d.getD i (0, 0) =
      (30 + (i : ℚ) * ((800 - 30 * 2) / ((points.length : ℚ) - 1)),
       30 + (300 - 30 * 2) *
         (1 - ((points.getD i ⟨"", 0⟩).v - listMin (points.map (·.v))) /
           chartRange (points.map (·.v)))) := by
  have hn : ¬ points.length < 2 := not_lt.mpr h2
  unfold chartOf
  rw [if_neg hn]
  simp only []
  have hi' : i < (points.enum.map (fun ip =>
      ((30 : ℚ) + (ip.1 : ℚ) * ((800 - 30 * 2) / ((points.length : ℚ) - 1)),
       (30 : ℚ) + (300 - 30 * 2) *
         (1 - (ip.2.v - listMin (points.map (·.v))) /
           chartRange (points.map (·.v)))))).length := by
    simpa using hi
  rw [List.getD_eq_getElem _ _ hi']
  rw [List.getElem_map]
  rw [List.getElem_enum]
  rw [List.getD_eq_getElem _ _ hi]

theorem chart_flat_y (points : List EquityPoint) (h2 : 2 ≤ points.length)
    (hflat : listMax (points.map (·.v)) - listMin (points.map (·.v)) = 0) :
    ∀ i < points.length, ((chartOf points).d.getD i (0, 0)).2 = 270 := by
  intro i hi
  rw [chartOf_d_getD points h2 hi]
  have hmem : (points.getD i ⟨"", 0⟩).v ∈ points.map (·.v) := by
    rw [List.getD_eq_getElem _ _ hi]
    exact List.mem_map_of_mem _ (List.getElem_mem hi)
  have hmaxmin : listMax (points.map (·.v)) = listMin (points.map (·.v)) :=
    sub_eq_zero.mp hflat
  have hv : (points.getD i ⟨"", 0⟩).v = listMin (points.map (·.v)) :=
    le_antisymm (hmaxmin ▸ le_listMax_of_mem hmem) (listMin_le_of_mem hmem)
  rw [hv]
  norm_num

/-- Inversion of the stats useMemo: a present result forces the length guard
to have passed and determines every field. -/
theorem summarize_fields {eq : List EquityPoint} {trades : List Trade}
    {s : SummaryStats} (h : summarize eq trades = some s) :
    2 ≤ eq.length ∧
    s.startV = (eq.headD ⟨"", 0⟩).v ∧
    s.endV = (eq.getLastD ⟨"", 0⟩).v ∧
    s.totalReturn = JsNum.mul (JsNum.sub (JsNum.div
        (JsNum.num ((eq.getLastD ⟨"", 0⟩).v)) (JsNum.num ((eq.headD ⟨"", 0⟩).v)))
        (JsNum.num 1)) (JsNum.num 100) ∧
    s.maxDrawdownPct = maxDrawdownPct (eq.map (·.v)) ∧
    s.tradesCount = trades.length ∧
    s.roundTrips = roundTripCount trades ∧
    s.winRate = winRate trades := by
  unfold summarize at h
  split at h
  next hlt => cases h
  next hlt =>
      simp only [Option.some.injEq] at h
      subst h
      exact ⟨not_lt.mp hlt, rfl, rfl, rfl, rfl, rfl, rfl, rfl⟩

/-- With a nonzero start value the JavaScript total-return arithmetic stays
finite and equals the rational formula. -/
theorem jsTotalReturn_of_ne {a b : ℚ} (hb : b ≠ 0) :
    JsNum.mul (JsNum.sub (JsNum.div (JsNum.num a) (JsNum.num b)) (JsNum.num 1))
      (JsNum.num 100) = JsNum.num ((a / b - 1) * 100) := by
  simp [JsNum.div, JsNum.sub, JsNum.mul, hb]

/-- With a zero start value the JavaScript total-return arithmetic produces a
non-finite value (`NaN` or a signed infinity), never a finite number. -/
theorem jsTotalReturn_of_zero (a : ℚ) :
    (JsNum.mul (JsNum.sub (JsNum.div (JsNum.num a) (JsNum.num 0)) (JsNum.num 1))
      (JsNum.num 100)).isFinite = false := by
  rcases lt_trichotomy a 0 with h | h | h
  · have hne : a ≠ 0 := ne_of_lt h
    have hnpos : ¬ 0 < a := not_lt.mpr h.le
    simp [JsNum.div, JsNum.sub, JsNum.mul, hne, hnpos, JsNum.isFinite]
  · subst h
    simp [JsNum.div, JsNum.sub, JsNum.mul, JsNum.isFinite]
  · have hne : a ≠ 0 := ne_of_gt h
    simp [JsNum.div, JsNum.sub, JsNum.mul, hne, h, JsNum.isFinite]

/-- A flat two-point equity series (zero value range). -/
def eqFlat : List EquityPoint := [⟨"a", 50⟩, ⟨"b", 50⟩]

/-- A two-point equity series whose start value is zero. -/
def eqZero : List EquityPoint := [⟨"a", 0⟩, ⟨"b", 5⟩]

/-! ### Claims -/

/-- Claim C1: in the round-trip scan, a BUY with no SELL anywhere after it
halts matching there: no trade at or after that BUY contributes a win or a
loss (whatever prefix precedes it, and whatever the scan state on reaching
it), while round trips classified before it remain counted; in particular a
ledger with BUYs and no SELL at all yields `roundTripCount = 0` and
`winRatePct = 0`. -/
theorem claim_C1 :
    (∀ (pre : List Trade) (b : Trade) (suf : List Trade),
        b.side = Side.BUY → (∀ t ∈ suf, t.side ≠ Side.SELL) →
        roundTripsWL (pre ++ b :: suf) = roundTripsWL pre) ∧
    (∀ tl : List Trade, (∀ t ∈ tl, t.side ≠ Side.SELL) →
        roundTripCount tl = 0 ∧ winRate tl = 0) := by
  constructor
  · intro pre b suf hb hs
    exact rtwGo_halt hb hs pre none
  · intro tl h
    have h0 : roundTripsWL tl = (0, 0) := roundTripsWL_of_nosell h
    constructor
    · simp [roundTripCount, h0]
    · simp [winRate, roundTripCount, h0]

/-- Witness for C1 on the specification's unterminated ledger
`[BUY 10@50, BUY 5@70]`. -/
theorem claim_C1_witness :
    roundTripsWL ([exU1] ++ exU2 :: []) = roundTripsWL [exU1] ∧
    roundTripCount [exU1, exU2] = 0 ∧ winRate [exU1, exU2] = 0 :=
  ⟨claim_C1.1 [exU1] exU2 [] rfl (by simp),
   (claim_C1.2 [exU1, exU2] (by simp [exU1, exU2])).1,
   (claim_C1.2 [exU1, exU2] (by simp [exU1, exU2])).2⟩

/-- Claim C2: a BUY matched with the nearest following SELL is scored with
quantity `min(buy.qty, sell.qty)` and
`P&L = (sell.price − buy.price) × qty − (buy.fee + sell.fee)`, counted as a
win iff P&L > 0; trades strictly between them are skipped and the scan
resumes just after the SELL; `roundTripCount = wins + losses` and
`winRatePct = wins / roundTripCount × 100` when positive, else 0; on the
example ledger the two round trips have P&L 98 (win) and −27 (loss) and the
win rate is 50. -/
theorem claim_C2 :
    (∀ (b : Trade) (mid : List Trade) (s : Trade) (rest : List Trade),
        b.side = Side.BUY → s.side = Side.SELL →
        (∀ t ∈ mid, t.side ≠ Side.SELL) →
        roundTripsWL (b :: (mid ++ s :: rest)) =
          (if 0 < pnlOf b s
           then ((roundTripsWL rest).1 + 1, (roundTripsWL rest).2)
           else ((roundTripsWL rest).1, (roundTripsWL rest).2 + 1))) ∧
    (∀ tl : List Trade,
        roundTripCount tl = (roundTripsWL tl).1 + (roundTripsWL tl).2) ∧
    (∀ tl : List Trade,
        winRate tl =
          if 0 < roundTripCount tl
          then ((roundTripsWL tl).1 : ℚ) / (roundTripCount tl : ℚ) * 100
          else 0) ∧
    pnlOf exB1 exS1 = 98 ∧ pnlOf exB2 exS2 = -27 ∧
    roundTripsWL exLedger = (1, 1) ∧ roundTripCount exLedger = 2 ∧
    winRate exLedger = 50 := by
  refine ⟨?_, fun tl => rfl, fun tl => rfl, ?_, ?_, ?_, ?_, ?_⟩
  · intro b mid s rest hb hs hmid
    exact roundTripsWL_cons_buy_some hb (splitAtSell_cons_sell hmid hs rest)
  · norm_num [pnlOf, exB1, exS1]
  · norm_num [pnlOf, exB2, exS2]
  · norm_num [roundTripsWL, rtwGo, exLedger, exB1, exS1, exB2, exS2, pnlOf]
  · norm_num [roundTripCount, roundTripsWL, rtwGo, exLedger, exB1, exS1, exB2,
      exS2, pnlOf]
  · norm_num [winRate, roundTripCount, roundTripsWL, rtwGo, exLedger, exB1,
      exS1, exB2, exS2, pnlOf]

/-- Witness for C2: the first round trip of the example ledger is scored and
the scan resumes after the matched SELL. -/
theorem claim_C2_witness :
    roundTripsWL (exB1 :: ([] ++ exS1 :: [exB2, exS2])) =
      (if 0 < pnlOf exB1 exS1
       then ((roundTripsWL [exB2, exS2]).1 + 1, (roundTripsWL [exB2, exS2]).2)
       else ((roundTripsWL [exB2, exS2]).1, (roundTripsWL [exB2, exS2]).2 + 1)) :=
  claim_C2.1 exB1 [] exS1 [exB2, exS2] rfl rfl (by simp)

/-- Claim C3: the maximum drawdown reported by the statistics record equals
100 times the maximum over the series of the instantaneous drawdowns of the
specification's forward pass (peak from negative infinity, updated to
`max(peak, value)`, drawdown computed only when peak > 0); on
`[100, 120, 80, 130]` the running peaks are `100, 120, 120, 130`, the
drawdowns `0, 0, 1/3, 0`, and the result is `100/3`. -/
theorem claim_C3 :
    (∀ (eq : List EquityPoint) (trades : List Trade) (s : SummaryStats),
        summarize eq trades = some s →
        s.maxDrawdownPct = specMaxDD (eq.map (·.v))) ∧
    peaksList [100, 120, 80, 130] none = [100, 120, 120, 130] ∧
    ddList [100, 120, 80, 130] none = [0, 0, 1/3, 0] ∧
    maxDrawdownPct [100, 120, 80, 130] = 100 / 3 := by
  refine ⟨?_, ?_, ?_, ?_⟩
  · intro eq trades s h
    rw [(summarize_fields h).2.2.2.2.1, maxDrawdownPct_eq_specMaxDD]
  · norm_num [peaksList, specPeak]
  · norm_num [ddList, specPeak]
  · norm_num [maxDrawdownPct, ddFold, updPeak]

/-- Witness for C3 on the drawdown example series. -/
theorem claim_C3_witness :
    (⟨100, 130, JsNum.num 30, 100 / 3, 0, 0, 0⟩ : SummaryStats).maxDrawdownPct
      = specMaxDD (eqEx.map (·.v)) :=
  claim_C3.1 eqEx [] _
    (by norm_num [summarize, eqEx, maxDrawdownPct, ddFold, updPeak,
      roundTripCount, winRate, roundTripsWL, rtwGo, JsNum.div, JsNum.sub,
      JsNum.mul])

/-- Claim C4: with fewer than two equity points the statistics engine returns
an absent result and the chart mapper an empty path with zeroed bounds; both
are total functions here, so neither can throw. -/
theorem claim_C4 :
    ∀ (eq : List EquityPoint) (trades : List Trade), eq.length < 2 →
      summarize eq trades = none ∧ chartOf eq = ⟨[], 800, 300, 0, 0, 0⟩ := by
  intro eq trades h
  exact ⟨by simp [summarize, h], by simp [chartOf, h]⟩

/-- Witness for C4 on a one-point series. -/
theorem claim_C4_witness :
    summarize [⟨"t1", 100⟩] [exB1] = none ∧
    chartOf [⟨"t1", 100⟩] = ⟨[], 800, 300, 0, 0, 0⟩ :=
  claim_C4 [⟨"t1", 100⟩] [exB1] (by norm_num)

/-- Claim C5: for `n ≥ 2` points the chart maps point `i` to
`x = padding + i × (width − 2·padding)/(n−1)` and
`y = padding + (height − 2·padding) × (1 − (value − min)/range)`; on
`[{v:100},{v:200}]` with the 800×300 canvas and padding 30 the path runs from
`(30, 270)` to `(770, 30)`. -/
theorem claim_C5 :
    (∀ (points : List EquityPoint), 2 ≤ points.length → ∀ i < points.length,
        (chartOf points).d.getD i (0, 0) =
          (30 + (i : ℚ) * ((800 - 30 * 2) / ((points.length : ℚ) - 1)),
           30 + (300 - 30 * 2) *
             (1 - ((points.getD i ⟨"", 0⟩).v - listMin (points.map (·.v))) /
               chartRange (points.map (·.v))))) ∧
    chartOf eqChart = ⟨[(30, 270), (770, 30)], 800, 300, 100, 200, 200⟩ := by
  refine ⟨?_, ?_⟩
  · intro points h2 i hi
    exact chartOf_d_getD points h2 hi
  · norm_num [chartOf, eqChart, chartRange, listMin, listMax, List.enum,
      List.enumFrom]

/-- Witness for C5: the second point of the chart example. -/
theorem claim_C5_witness :
    (chartOf eqChart).d.getD 1 (0, 0) =
      (30 + ((1 : ℕ) : ℚ) * ((800 - 30 * 2) / ((eqChart.length : ℚ) - 1)),
       30 + (300 - 30 * 2) *
         (1 - ((eqChart.getD 1 ⟨"", 0⟩).v - listMin (eqChart.map (·.v))) /
           chartRange (eqChart.map (·.v)))) :=
  claim_C5.1 eqChart (by norm_num [eqChart]) 1 (by norm_num [eqChart])

/-- Claim C6: the statistics record's start and end values are the first and
last equity values, the total return is `(end / start − 1) × 100`, and a zero
start value yields a non-finite total return that is passed through rather
than raised as an error. -/
theorem claim_C6 :
    ∀ (eq : List EquityPoint) (trades : List Trade) (s : SummaryStats),
      summarize eq trades = some s →
      s.startV = (eq.headD ⟨"", 0⟩).v ∧
      s.endV = (eq.getLastD ⟨"", 0⟩).v ∧
      (s.startV ≠ 0 → s.totalReturn = JsNum.num ((s.endV / s.startV - 1) * 100)) ∧
      (s.startV = 0 → s.totalReturn.isFinite = false) := by
  intro eq trades s h
  obtain ⟨h2, hstart, hend, htot, hdd, htc, hrt, hwr⟩ := summarize_fields h
  refine ⟨hstart, hend, ?_, ?_⟩
  · intro hne
    rw [hstart] at hne
    rw [htot, hstart, hend]
    exact jsTotalReturn_of_ne hne
  · intro hz
    rw [hstart] at hz
    rw [htot, hz]
    exact jsTotalReturn_of_zero _

/-- Witness for C6 on a series with zero start value: the total return is
non-finite (here `Infinity`) and is carried in the record. -/
theorem claim_C6_witness :
    (⟨0, 5, JsNum.posInf, 0, 0, 0, 0⟩ : SummaryStats).startV =
      (eqZero.headD ⟨"", 0⟩).v ∧
    (⟨0, 5, JsNum.posInf, 0, 0, 0, 0⟩ : SummaryStats).endV =
      (eqZero.getLastD ⟨"", 0⟩).v ∧
    ((⟨0, 5, JsNum.posInf, 0, 0, 0, 0⟩ : SummaryStats).startV ≠ 0 →
      (⟨0, 5, JsNum.posInf, 0, 0, 0, 0⟩ : SummaryStats).totalReturn =
        JsNum.num (((⟨0, 5, JsNum.posInf, 0, 0, 0, 0⟩ : SummaryStats).endV /
          (⟨0, 5, JsNum.posInf, 0, 0, 0, 0⟩ : SummaryStats).startV - 1) * 100)) ∧
    ((⟨0, 5, JsNum.posInf, 0, 0, 0, 0⟩ : SummaryStats).startV = 0 →
      (⟨0, 5, JsNum.posInf, 0, 0, 0, 0⟩ : SummaryStats).totalReturn.isFinite
        = false) :=
  claim_C6 eqZero [] _
    (by norm_num [summarize, eqZero, maxDrawdownPct, ddFold, updPeak,
      roundTripCount, winRate, roundTripsWL, rtwGo, JsNum.div, JsNum.sub,
      JsNum.mul])

/-- Claim C7: a monotone non-decreasing equity series of length at least two
has maximum drawdown exactly zero. -/
theorem claim_C7 :
    ∀ (eq : List EquityPoint) (trades : List Trade) (s : SummaryStats),
      summarize eq trades = some s → (eq.map (·.v)).Chain' (· ≤ ·) →
      s.maxDrawdownPct = 0 := by
  intro eq trades s h hch
  rw [(summarize_fields h).2.2.2.2.1]
  exact maxDrawdownPct_of_monotone hch

/-- Witness for C7 on the rising series `[100, 200]`. -/
theorem claim_C7_witness :
    (⟨100, 200, JsNum.num 100, 0, 0, 0, 0⟩ : SummaryStats).maxDrawdownPct = 0 :=
  claim_C7 eqChart [] _
    (by norm_num [summarize, eqChart, maxDrawdownPct, ddFold, updPeak,
      roundTripCount, winRate, roundTripsWL, rtwGo, JsNum.div, JsNum.sub,
      JsNum.mul])
    (by norm_num [eqChart])

/-- Claim C8: the chart's vertical range is `max − min`, substituted by 1 when
zero, so the vertical division is always well defined and a flat series draws
a horizontal line (every path point at `y = 270`). -/
theorem claim_C8 :
    ∀ (eq : List EquityPoint), 2 ≤ eq.length →
      0 < chartRange (eq.map (·.v)) ∧
      (listMax (eq.map (·.v)) - listMin (eq.map (·.v)) = 0 →
        chartRange (eq.map (·.v)) = 1 ∧
        ∀ i < eq.length, ((chartOf eq).d.getD i (0, 0)).2 = 270) ∧
      (listMax (eq.map (·.v)) - listMin (eq.map (·.v)) ≠ 0 →
        chartRange (eq.map (·.v)) =
          listMax (eq.map (·.v)) - listMin (eq.map (·.v))) := by
  intro eq h2
  have hne : eq.map (·.v) ≠ [] := by
    cases eq with
    | nil => simp at h2
    | cons p r => simp
  refine ⟨chartRange_pos _ hne, ?_, ?_⟩
  · intro hflat
    exact ⟨by simp [chartRange, hflat], chart_flat_y eq h2 hflat⟩
  · intro hnz
    simp [chartRange, hnz]

/-- Witness for C8 on the flat series `[50, 50]`. -/
theorem claim_C8_witness :
    0 < chartRange (eqFlat.map (·.v)) ∧
    (listMax (eqFlat.map (·.v)) - listMin (eqFlat.map (·.v)) = 0 →
      chartRange (eqFlat.map (·.v)) = 1 ∧
      ∀ i < eqFlat.length, ((chartOf eqFlat).d.getD i (0, 0)).2 = 270) ∧
    (listMax (eqFlat.map (·.v)) - listMin (eqFlat.map (·.v)) ≠ 0 →
      chartRange (eqFlat.map (·.v)) =
        listMax (eqFlat.map (·.v)) - listMin (eqFlat.map (·.v))) :=
  claim_C8 eqFlat (by norm_num [eqFlat])

/-- Claim C9: the statistics record's trade count is the full length of the
ledger, independent of how many trades were matched into round trips. -/
theorem claim_C9 :
    ∀ (eq : List EquityPoint) (trades : List Trade) (s : SummaryStats),
      summarize eq trades = some s → s.tradesCount = trades.length := by
  intro eq trades s h
  exact (summarize_fields h).2.2.2.2.2.1

/-- Witness for C9: the example ledger has four trades but only two round
trips; the trade count stays four. -/
theorem claim_C9_witness :
    (⟨100, 200, JsNum.num 100, 0, 4, 2, 50⟩ : SummaryStats).tradesCount =
      exLedger.length :=
  claim_C9 eqChart exLedger _
    (by norm_num [summarize, eqChart, maxDrawdownPct, ddFold, updPeak,
      roundTripCount, winRate, roundTripsWL, rtwGo, exLedger, exB1, exS1,
      exB2, exS2, pnlOf, JsNum.div, JsNum.sub, JsNum.mul])

/-- Claim C10: each trade enters at most one round trip, so twice the
round-trip count never exceeds the ledger length, and the win rate always
lies in `[0, 100]`. -/
theorem claim_C10 :
    ∀ tl : List Trade,
      2 * roundTripCount tl ≤ tl.length ∧
      0 ≤ winRate tl ∧ winRate tl ≤ 100 :=
  fun tl => ⟨two_mul_roundTripCount_le tl, winRate_nonneg tl, winRate_le_100 tl⟩

end Backtest
